import Mathlib

/-!
Verification development for `src/async.py`, a minimal single-threaded
cooperative event loop with a future/promise abstraction.

Shallow embedding conventions:
* `datetime` instants are modelled as natural numbers (`Time`); every call of
  `datetime.now()` is made explicit as a parameter, and within one iteration of
  the `run` loop all `now()` readings are modelled as the same instant, supplied
  by a clock oracle `clock : Nat → Time` indexed by the iteration counter.
* Mutable objects become explicit state passing: `Future.set_result` returns the
  updated future together with the updated `Loop` (it schedules callbacks on the
  process-wide loop), and `run` threads a `World` holding the loop, the future
  store and the coroutine store.
* Python `None` is `PyVal.none`; the absent `_result` attribute is the
  `Option.none` value of the `_result` field (reading the `result` property is
  `getattr(self, "_result", None)`, i.e. `Option.getD`).
* `Event.tag` is ghost instrumentation, not present in the source: it records
  the position in the global enqueue order and is used only to state the
  stability of the scheduler. The sort ignores it, exactly as the source sorts
  by the `when` key alone; `list.sort` in Python is a stable sort by that key,
  and `List.insertionSort` with the `leWhen` order computes precisely the
  stable sort (the output of a stable sort is unique), so the model is
  extensionally the behaviour of the source.
* Generators become scripts of `CoroStep`s; `coro.send` pops the next step.
  A step either yields a plain value, performs the body of `sleep` up to its
  suspension (create a future, arm the loop, yield the future), finishes with
  the awaited future result (the resumption of `yield from future` followed by
  `return future.result`), or finishes with a fixed value (`StopIteration`).
-/

abbrev Time := Nat

/-- `FutureStatus` enum from the source. -/
inductive FutureStatus
  | DONE
  | SCHEDULED
  | CANCELLED
deriving DecidableEq, Repr

/-- Python values moved around by the scheduler; `none` is Python `None`. -/
inductive PyVal
  | none
  | int (n : Int)
deriving DecidableEq, Repr

/-- Identity of a Python callable stored in a `Callback`: either the bound
method `coro.send` of the coroutine at index `coro` of the coroutine store, or
the bound method `future.set_result` of the future at index `fut` of the
future store. These are the only callables the source ever wraps. -/
inductive FnId
  | send (coro : Nat)
  | set_result (fut : Nat)
deriving DecidableEq, Repr

/-- `Callback` NamedTuple: a callable together with its argument list. -/
structure Callback where
  fn : FnId
  args : List PyVal
deriving DecidableEq, Repr

/-- `Event` dataclass: a callback and an optional due time. The `tag` field is
ghost instrumentation recording the enqueue sequence number; it is used only to
state in which order events entered the registry. -/
structure Event where
  callback : Callback
  when : Option Time := Option.none
  tag : Nat := 0
deriving DecidableEq, Repr

/-- `Loop`: the registry of pending events. `nextTag` is the ghost counter
handing out enqueue sequence numbers. -/
structure Loop where
  events : List Event := []
  nextTag : Nat := 0
deriving DecidableEq, Repr

/-- `Loop.call_soon`: appends `Event(c, when=datetime.now())`; the reading of
`datetime.now()` is the explicit parameter `now`. -/
def Loop.call_soon (L : Loop) (c : Callback) (now : Time) : Loop :=
  { events := L.events ++ [{ callback := c, when := some now, tag := L.nextTag }],
    nextTag := L.nextTag + 1 }

/-- `Loop.call_later`: appends `Event(c, when=when)`. -/
def Loop.call_later (L : Loop) (c : Callback) (when : Time) : Loop :=
  { events := L.events ++ [{ callback := c, when := some when, tag := L.nextTag }],
    nextTag := L.nextTag + 1 }

/-- `Future` dataclass. `_result` models the presence or absence of the
`_result` attribute set by `set_result`. -/
structure Future where
  callbacks : List Callback := []
  status : FutureStatus := FutureStatus.SCHEDULED
  _result : Option PyVal := Option.none
deriving DecidableEq, Repr

/-- The `result` property: `getattr(self, "_result", None)`. -/
def Future.result (f : Future) : PyVal :=
  f._result.getD PyVal.none

/-- `Future.done`: `self.status != FutureStatus.SCHEDULED`. -/
def Future.done (f : Future) : Bool :=
  f.status != FutureStatus.SCHEDULED

/-- `Future._schedule_callbacks`: schedule every registered callback onto the
loop via `call_soon`. -/
def Future._schedule_callbacks (f : Future) (L : Loop) (now : Time) : Loop :=
  f.callbacks.foldl (fun acc c => acc.call_soon c now) L

/-- `Future.set_result`: set `_result`, set `status = DONE`, then run
`_schedule_callbacks`. Returns the updated future and loop. Note that the
source performs no status check before overwriting. -/
def Future.set_result (f : Future) (value : PyVal) (now : Time) (L : Loop) :
    Future × Loop :=
  let f' : Future :=
    { f with _result := some value, status := FutureStatus.DONE }
  (f', f'._schedule_callbacks L now)

/-- `Future.cancel`: `self.status = FutureStatus.CANCELLED`, nothing else. -/
def Future.cancel (f : Future) : Future :=
  { f with status := FutureStatus.CANCELLED }

/-- `Future.add_done_callback`: `self.callbacks.append(c)`. -/
def Future.add_done_callback (f : Future) (c : Callback) : Future :=
  { f with callbacks := f.callbacks ++ [c] }

/-- Outcome of driving the generator returned by `Future.__iter__` one step:
the generator either returns immediately (raising `StopIteration` that carries
the value, with no suspension) or yields, suspending the caller with the
yielded future as the waiting token. -/
inductive IterOutcome
  | finished (v : PyVal)
  | suspended (f : Future)
deriving DecidableEq, Repr

/-- `Future.__iter__`: if DONE, return `self.result`; if CANCELLED, return
`None`; otherwise `yield self`. -/
def Future.iter (f : Future) : IterOutcome :=
  if f.status = FutureStatus.DONE then IterOutcome.finished f.result
  else if f.status = FutureStatus.CANCELLED then IterOutcome.finished PyVal.none
  else IterOutcome.suspended f

/-- `create_future()`. -/
def create_future : Future := {}

/-- One call applied to a particular future (and the shared loop): the public
mutating operations of the `Future` class. -/
inductive FOp
  | set_result (v : PyVal) (now : Time)
  | cancel
  | add_done_callback (c : Callback)
deriving DecidableEq, Repr

/-- Whether an operation is a `set_result` call. -/
def FOp.isSet : FOp → Bool
  | .set_result _ _ => true
  | _ => false

/-- Apply one operation to a future together with the shared loop. -/
def applyFOp (s : Future × Loop) (op : FOp) : Future × Loop :=
  match op with
  | .set_result v now => s.1.set_result v now s.2
  | .cancel => (s.1.cancel, s.2)
  | .add_done_callback c => (s.1.add_done_callback c, s.2)

/-- Apply a sequence of operations in order. -/
def applyFOps (s : Future × Loop) (ops : List FOp) : Future × Loop :=
  ops.foldl applyFOp s

/-- The status a future reaches after one more operation, given its current
status: `set_result` always writes DONE, `cancel` always writes CANCELLED,
`add_done_callback` leaves the status alone. -/
def statusStep (st : FutureStatus) (op : FOp) : FutureStatus :=
  match op with
  | .set_result _ _ => FutureStatus.DONE
  | .cancel => FutureStatus.CANCELLED
  | .add_done_callback _ => st

/-- The `_result` attribute after one more operation. -/
def resultStep (r : Option PyVal) (op : FOp) : Option PyVal :=
  match op with
  | .set_result v _ => some v
  | _ => r

/-- Whether an operation writes the `status` field. -/
def FOp.changesStatus : FOp → Bool
  | .add_done_callback _ => false
  | _ => true

/-- The events produced when `_schedule_callbacks` walks the callback list
`cs`, all due at `now`, tagged consecutively from `t0`. -/
def schedList (cs : List Callback) (now : Time) (t0 : Nat) : List Event :=
  match cs with
  | [] => []
  | c :: rest =>
      { callback := c, when := some now, tag := t0 } :: schedList rest now (t0 + 1)

/-- One step of a coroutine script. Each `coro.send` executes one step:
* `yieldVal v` — the generator yields the plain value `v`;
* `sleepStart delay res` — the body of `sleep` up to its suspension point:
  `create_future()`, `call_later(Callback(future.set_result, [res]),
  now + delay)`, then yield the future (the first resumption of
  `yield from future` on a SCHEDULED future);
* `finishFutResult` — the final resumption of `sleep`: `yield from future`
  completes and the generator returns `future.result` via `StopIteration`;
* `finish v` — the generator returns `v` via `StopIteration`. -/
inductive CoroStep
  | yieldVal (v : PyVal)
  | sleepStart (delay : Nat) (res : PyVal)
  | finishFutResult
  | finish (v : PyVal)
deriving DecidableEq, Repr

/-- A coroutine: its remaining script and, after a `sleepStart`, the index of
the future it is suspended on (needed by `finishFutResult`). -/
structure CoroState where
  steps : List CoroStep
  awaiting : Option Nat := Option.none
deriving DecidableEq, Repr

/-- The full mutable state the scheduler touches: the process-wide loop plus
identity-indexed stores for `Future` objects and coroutine objects. -/
structure World where
  loop : Loop := {}
  futures : List Future := []
  coros : List CoroState := []
deriving DecidableEq, Repr

def World.getFuture (w : World) (i : Nat) : Future :=
  w.futures.getD i {}

def World.setFuture (w : World) (i : Nat) (f : Future) : World :=
  { w with futures := w.futures.set i f }

/-- What calling the callable of an event produces, as `run` sees it after its
`try/except StopIteration`: either a value (a plain return value or the value
carried by `StopIteration`) or a `Future` instance (identified by its index in
the future store — the `isinstance(res_or_fut, Future)` test). -/
inductive SendResult
  | val (v : PyVal)
  | fut (i : Nat)
deriving DecidableEq, Repr

/-- Execute one stored callable with its arguments at instant `now`:
`current_event.callback.fn(*current_event.callback.args)` wrapped in the
`except StopIteration` handler of `run`. -/
def execFn (w : World) (fn : FnId) (args : List PyVal) (now : Time) :
    World × SendResult :=
  match fn with
  | .set_result i =>
      let f := w.getFuture i
      let r := f.set_result (args.headD PyVal.none) now w.loop
      ({ w with futures := w.futures.set i r.1, loop := r.2 },
       SendResult.val PyVal.none)
  | .send i =>
      let cs := w.coros.getD i { steps := [] }
      match cs.steps with
      | [] => (w, SendResult.val PyVal.none)
      | step :: rest =>
          match step with
          | .yieldVal v =>
              ({ w with coros := w.coros.set i { cs with steps := rest } },
               SendResult.val v)
          | .finish v =>
              ({ w with coros := w.coros.set i { cs with steps := rest } },
               SendResult.val v)
          | .finishFutResult =>
              ({ w with coros := w.coros.set i { cs with steps := rest } },
               SendResult.val
                 (match cs.awaiting with
                  | some j => (w.getFuture j).result
                  | _ => PyVal.none))
          | .sleepStart delay res =>
              let fid := w.futures.length
              ({ w with
                  futures := w.futures ++ [{}],
                  coros := w.coros.set i { steps := rest, awaiting := some fid },
                  loop := w.loop.call_later
                    { fn := FnId.set_result fid, args := [res] } (now + delay) },
               SendResult.fut fid)

/-- The order `run` sorts the registry by: the `when` key. Events created by
the loop always carry a concrete time, so the `Option.getD` default is never
exercised on reachable states (the source would raise on a `None` key). -/
def leWhen (a b : Event) : Prop :=
  a.when.getD 0 ≤ b.when.getD 0

instance : DecidableRel leWhen :=
  fun a b => Nat.decLe (a.when.getD 0) (b.when.getD 0)

instance : IsTotal Event leWhen :=
  ⟨fun a b => Nat.le_total (a.when.getD 0) (b.when.getD 0)⟩

instance : IsTrans Event leWhen :=
  ⟨fun _ _ _ h h2 => Nat.le_trans h h2⟩

/-- Non-decreasing due times, the order in which `run` executes events. -/
def whenLe (a b : Event) : Prop :=
  a.when.getD 0 ≤ b.when.getD 0

/-- Events with equal due time appear in enqueue order (smaller ghost tag
first): the stability relation. -/
def eqWhenTagLt (a b : Event) : Prop :=
  a.when = b.when → a.tag < b.tag

/-- The state local to one call of `run`: the world, the accumulated `results`
list, and the ghost `trace` of events executed so far, in execution order. -/
structure RunState where
  w : World
  results : List PyVal := []
  trace : List Event := []
deriving DecidableEq, Repr

def setEvents (w : World) (es : List Event) : World :=
  { w with loop := { w.loop with events := es } }

/-- The body of one due iteration of the `while` loop of `run`: the registry
has just been sorted into `e :: rest`, and `e.when <= now`. Execute the
callback; if it produced a Future, re-arm the same callback as a done-callback
on that future; if it produced the value `None`, append it to `results`; then
`del current_loop.events[0]` (new events were appended behind `rest`). -/
def dispatchWorld (w1 : World) (r : SendResult) (c : Callback) : World :=
  match r with
  | .fut i => w1.setFuture i ((w1.getFuture i).add_done_callback c)
  | .val _ => w1

def dispatchResults (rs : List PyVal) (r : SendResult) : List PyVal :=
  match r with
  | .val v => if v = PyVal.none then rs ++ [PyVal.none] else rs
  | .fut _ => rs

def execDue (now : Time) (s : RunState) (e : Event) (rest : List Event) :
    RunState :=
  let out := execFn (setEvents s.w (e :: rest)) e.callback.fn e.callback.args now
  let w2 := dispatchWorld out.1 out.2 ⟨e.callback.fn, e.callback.args⟩
  { w := setEvents w2 w2.loop.events.tail,
    results := dispatchResults s.results out.2,
    trace := s.trace ++ [e] }

/-- One iteration of the `while` loop of `run` at instant `now`: sort the
registry (in place, by the `when` key, stably); if the earliest event is due,
execute it, otherwise only block (the wall clock advances through the clock
oracle and the registry is left as sorted). -/
def runStep (now : Time) (s : RunState) : RunState :=
  match List.insertionSort leWhen s.w.loop.events with
  | [] => s
  | e :: rest =>
      if e.when.getD 0 ≤ now then execDue now s e rest
      else { s with w := setEvents s.w (e :: rest) }

/-- Drain the registry: iterate `runStep` while events remain. `fuel` bounds
the number of iterations (the source may block or loop arbitrarily long); the
returned flag tells whether the `while` loop exited normally. `k` is the
iteration counter feeding the clock oracle. -/
def runAux (clock : Nat → Time) : Nat → Nat → RunState → RunState × Bool
  | 0, _, s => (s, false)
  | fuel + 1, k, s =>
      if s.w.loop.events.isEmpty then (s, true)
      else runAux clock fuel (k + 1) (runStep (clock k) s)

/-- What the Python function `run` returns: `None` (the bare `return` on an
empty argument list), the `results` list, or no return at all within `fuel`
iterations. -/
inductive RunRet
  | retNone
  | results (rs : List PyVal)
  | fuelOut
deriving DecidableEq, Repr

/-- Seeding phase of `run`: for each coroutine, store it and
`call_soon(Callback(coro.send, [None]))`. -/
def seed (w : World) (coros : List (List CoroStep)) (now : Time) : World :=
  coros.foldl
    (fun acc steps =>
      { acc with
          coros := acc.coros ++ [{ steps := steps }],
          loop := acc.loop.call_soon
            { fn := FnId.send acc.coros.length, args := [PyVal.none] } now })
    w

/-- `run(*coros)`: return `None` immediately when no coroutine is given;
otherwise seed the loop and drain it, returning the accumulated `results`.
Also returns the final `RunState` so that the scheduling behaviour (registry,
ghost trace) is observable. -/
def run (clock : Nat → Time) (fuel : Nat) (w : World)
    (coros : List (List CoroStep)) : RunRet × RunState :=
  if coros.length ≤ 0 then (RunRet.retNone, { w := w })
  else
    let s0 : RunState := { w := seed w coros (clock 0) }
    let r := runAux clock fuel 0 s0
    (if r.2 then RunRet.results r.1.results else RunRet.fuelOut, r.1)

/-- The script of `sleep(delay, result)`: arm a timer completing a fresh
future after `delay`, suspend on it, finish with `future.result`. -/
def sleepScript (delay : Nat) (res : PyVal) : List CoroStep :=
  [CoroStep.sleepStart delay res, CoroStep.finishFutResult]

/-- Invariant tying the ghost tags to the scheduling history, carried through
the drain loop of `run`: pending events carry tags below the enqueue counter
and, at equal due time, sit in enqueue order; the executed trace is ordered by
due time and, at equal due time, by enqueue order; every executed event was due
no later than the current instant, carries a tag below the counter, and
precedes every pending event in both orders. -/
structure LoopInv (now : Time) (s : RunState) : Prop where
  tagsBound : ∀ e ∈ s.w.loop.events, e.tag < s.w.loop.nextTag
  pendingStable : s.w.loop.events.Pairwise eqWhenTagLt
  traceTagsBound : ∀ e ∈ s.trace, e.tag < s.w.loop.nextTag
  traceSorted : s.trace.Pairwise whenLe
  traceStable : s.trace.Pairwise eqWhenTagLt
  traceDue : ∀ e ∈ s.trace, e.when.getD 0 ≤ now
  cross : ∀ e ∈ s.trace, ∀ p ∈ s.w.loop.events, whenLe e p ∧ eqWhenTagLt e p

/-! ### Helper lemmas about operation sequences on a single future -/

theorem applyFOps_cons (s : Future × Loop) (op : FOp) (ops : List FOp) :
    applyFOps s (op :: ops) = applyFOps (applyFOp s op) ops := rfl

theorem applyFOp_status (s : Future × Loop) (op : FOp) :
    (applyFOp s op).1.status = statusStep s.1.status op := by
  cases op <;> rfl

theorem applyFOp_result (s : Future × Loop) (op : FOp) :
    (applyFOp s op).1._result = resultStep s.1._result op := by
  cases op <;> rfl

theorem applyFOps_status (ops : List FOp) : ∀ s : Future × Loop,
    (applyFOps s ops).1.status = ops.foldl statusStep s.1.status := by
  induction ops with
  | nil => intro s; rfl
  | cons op ops ih =>
      intro s
      rw [applyFOps_cons, List.foldl_cons, ih, applyFOp_status]

theorem applyFOps_result (ops : List FOp) : ∀ s : Future × Loop,
    (applyFOps s ops).1._result = ops.foldl resultStep s.1._result := by
  induction ops with
  | nil => intro s; rfl
  | cons op ops ih =>
      intro s
      rw [applyFOps_cons, List.foldl_cons, ih, applyFOp_result]

theorem applyFOp_loop_frame (s : Future × Loop) (op : FOp) (h : op.isSet = false) :
    (applyFOp s op).2 = s.2 := by
  cases op with
  | set_result v t => simp [FOp.isSet] at h
  | cancel => rfl
  | add_done_callback c => rfl

theorem applyFOps_loop_frame (ops : List FOp) : ∀ s : Future × Loop,
    (∀ op ∈ ops, op.isSet = false) → (applyFOps s ops).2 = s.2 := by
  induction ops with
  | nil => intro s _; rfl
  | cons op ops ih =>
      intro s h
      rw [applyFOps_cons, ih _ (fun o ho => h o (List.mem_cons_of_mem _ ho)),
        applyFOp_loop_frame s op (h op (List.mem_cons_self _ _))]

theorem foldl_call_soon (cs : List Callback) : ∀ (L : Loop) (now : Time),
    cs.foldl (fun acc c => acc.call_soon c now) L =
      { events := L.events ++ schedList cs now L.nextTag,
        nextTag := L.nextTag + cs.length } := by
  induction cs with
  | nil => intro L now; simp [schedList]
  | cons c cs ih =>
      intro L now
      rw [List.foldl_cons, ih]
      simp [Loop.call_soon, schedList]
      omega

theorem foldl_result_isSome (ops : List FOp) : ∀ r : Option PyVal,
    (ops.foldl resultStep r).isSome = (r.isSome || ops.any FOp.isSet) := by
  induction ops with
  | nil => intro r; simp
  | cons op ops ih =>
      intro r
      rw [List.foldl_cons, ih]
      cases op <;> simp [resultStep, FOp.isSet, Bool.or_assoc]

theorem foldl_status_done (ops : List FOp) : ∀ st : FutureStatus,
    ops.foldl statusStep st = FutureStatus.DONE →
      st = FutureStatus.DONE ∨ ops.any FOp.isSet = true := by
  induction ops with
  | nil => intro st h; exact Or.inl h
  | cons op ops ih =>
      intro st h
      rw [List.foldl_cons] at h
      rcases ih _ h with h1 | h1
      · cases op with
        | set_result v t => right; simp [FOp.isSet]
        | cancel =>
            exact absurd (show FutureStatus.CANCELLED = FutureStatus.DONE from h1)
              (by decide)
        | add_done_callback c => exact Or.inl h1
      · right; simp [List.any_cons, h1]

theorem foldl_status_sched (ops : List FOp) : ∀ st : FutureStatus,
    ops.foldl statusStep st = FutureStatus.SCHEDULED →
      st = FutureStatus.SCHEDULED ∧ ∀ op ∈ ops, op.changesStatus = false := by
  induction ops with
  | nil => intro st h; exact ⟨h, by simp⟩
  | cons op ops ih =>
      intro st h
      rw [List.foldl_cons] at h
      rcases ih _ h with ⟨h1, h2⟩
      cases op with
      | set_result v t =>
          exact absurd (show FutureStatus.DONE = FutureStatus.SCHEDULED from h1)
            (by decide)
      | cancel =>
          exact absurd (show FutureStatus.CANCELLED = FutureStatus.SCHEDULED from h1)
            (by decide)
      | add_done_callback c =>
          refine ⟨h1, fun o ho => ?_⟩
          rcases List.mem_cons.mp ho with rfl | ho
          · rfl
          · exact h2 o ho

/-! ### Claim C1 -/

/-- Claim C1 (counterexample): the status sequence is not terminal-sticky.
Starting from a fresh future, `set_result(1)` reaches the terminal status DONE,
and a subsequent `cancel()` changes the status again, to CANCELLED: a second
terminal transition occurs, contrary to the claim. -/
theorem cancel_after_set_result_changes_terminal_status :
    ((applyFOps (create_future, ({} : Loop)) [FOp.set_result (PyVal.int 1) 0]).1.status
        = FutureStatus.DONE) ∧
    ((applyFOps (create_future, ({} : Loop))
        [FOp.set_result (PyVal.int 1) 0, FOp.cancel]).1.status
        = FutureStatus.CANCELLED) ∧
    FutureStatus.CANCELLED ≠ FutureStatus.DONE :=
  ⟨rfl, rfl, by decide⟩

/-- Claim C1 (amended): the status after any sequence of calls on a fresh
future is the fold of the per-operation status writes: it starts SCHEDULED,
`set_result` always writes DONE and `cancel` always writes CANCELLED, whatever
the current status — terminal statuses are not sticky, so the last
status-writing call wins and several terminal transitions can occur. -/
theorem future_status_determined_by_last_transition (ops : List FOp) (L : Loop)
    (v : PyVal) (now : Time) :
    ((applyFOps (create_future, L) ops).1.status
        = ops.foldl statusStep FutureStatus.SCHEDULED) ∧
    ((applyFOps (create_future, L) (ops ++ [FOp.cancel])).1.status
        = FutureStatus.CANCELLED) ∧
    ((applyFOps (create_future, L) (ops ++ [FOp.set_result v now])).1.status
        = FutureStatus.DONE) := by
  refine ⟨applyFOps_status ops _, ?_, ?_⟩
  · show ((List.foldl applyFOp _ (ops ++ [FOp.cancel])).1.status = _)
    rw [List.foldl_append]
    rfl
  · show ((List.foldl applyFOp _ (ops ++ [FOp.set_result v now])).1.status = _)
    rw [List.foldl_append]
    rfl

/-! ### Claim C4 -/

/-- Claim C4 (counterexample): a defined result is observable in a non-DONE
status. After `set_result(42)` followed by `cancel()`, the status is CANCELLED
while the `_result` attribute is still set (and the `result` property yields
42), so observability of `result` is not equivalent to `status == DONE`. -/
theorem result_defined_in_cancelled_status :
    ((applyFOps (create_future, ({} : Loop))
        [FOp.set_result (PyVal.int 42) 0, FOp.cancel]).1.status
        = FutureStatus.CANCELLED) ∧
    ((applyFOps (create_future, ({} : Loop))
        [FOp.set_result (PyVal.int 42) 0, FOp.cancel]).1._result
        = some (PyVal.int 42)) ∧
    ((applyFOps (create_future, ({} : Loop))
        [FOp.set_result (PyVal.int 42) 0, FOp.cancel]).1.result
        = PyVal.int 42) ∧
    ¬(((applyFOps (create_future, ({} : Loop))
        [FOp.set_result (PyVal.int 42) 0, FOp.cancel]).1._result.isSome = true) ↔
      ((applyFOps (create_future, ({} : Loop))
        [FOp.set_result (PyVal.int 42) 0, FOp.cancel]).1.status
        = FutureStatus.DONE)) := by
  refine ⟨rfl, rfl, rfl, ?_⟩
  decide

/-- Claim C4 (amended): the `_result` attribute of a fresh future is defined
after a sequence of calls exactly when the sequence contains a `set_result`
call, independently of the final status. Status DONE still implies a defined
result and status SCHEDULED still implies an undefined one (read as `None`),
but a CANCELLED future may retain a defined result when `cancel` followed
`set_result`. -/
theorem result_defined_iff_set_result_occurred (ops : List FOp) (L : Loop) :
    ((applyFOps (create_future, L) ops).1._result.isSome = ops.any FOp.isSet) ∧
    ((applyFOps (create_future, L) ops).1.status = FutureStatus.DONE →
      (applyFOps (create_future, L) ops).1._result.isSome = true) ∧
    ((applyFOps (create_future, L) ops).1.status = FutureStatus.SCHEDULED →
      (applyFOps (create_future, L) ops).1._result = Option.none) := by
  have hres : (applyFOps (create_future, L) ops).1._result.isSome
      = ops.any FOp.isSet := by
    rw [applyFOps_result, foldl_result_isSome]
    rfl
  refine ⟨hres, ?_, ?_⟩
  · intro h
    rw [applyFOps_status] at h
    have h0 : ops.foldl statusStep FutureStatus.SCHEDULED = FutureStatus.DONE := h
    rcases foldl_status_done ops _ h0 with h1 | h1
    · exact absurd h1 (by decide)
    · rw [hres, h1]
  · intro h
    rw [applyFOps_status] at h
    have h0 : ops.foldl statusStep FutureStatus.SCHEDULED = FutureStatus.SCHEDULED := h
    have h2 := (foldl_status_sched ops _ h0).2
    have h3 : ops.any FOp.isSet = false := by
      rw [List.any_eq_false]
      intro op hop
      have := h2 op hop
      cases op with
      | set_result v t => simp [FOp.changesStatus] at this
      | cancel => simp [FOp.isSet]
      | add_done_callback c => simp [FOp.isSet]
    have h4 : (applyFOps (create_future, L) ops).1._result.isSome = false := by
      rw [hres, h3]
    cases hr : (applyFOps (create_future, L) ops).1._result with
    | none => rfl
    | some v => rw [hr] at h4; simp at h4

/-- Claim C4 (witness): the amended statement instantiated at a concrete
sequence containing one `set_result`. -/
theorem result_defined_iff_set_result_occurred_witness :
    ((applyFOps (create_future, ({} : Loop))
        [FOp.set_result (PyVal.int 7) 3]).1._result.isSome
      = [FOp.set_result (PyVal.int 7) 3].any FOp.isSet) ∧
    ((applyFOps (create_future, ({} : Loop))
        [FOp.set_result (PyVal.int 7) 3]).1.status = FutureStatus.DONE →
      (applyFOps (create_future, ({} : Loop))
        [FOp.set_result (PyVal.int 7) 3]).1._result.isSome = true) ∧
    ((applyFOps (create_future, ({} : Loop))
        [FOp.set_result (PyVal.int 7) 3]).1.status = FutureStatus.SCHEDULED →
      (applyFOps (create_future, ({} : Loop))
        [FOp.set_result (PyVal.int 7) 3]).1._result = Option.none) :=
  result_defined_iff_set_result_occurred [FOp.set_result (PyVal.int 7) 3] {}

/-! ### Claim C5 -/

/-- Claim C5: on a SCHEDULED future, `set_result(value)` sets `_result` to the
value, sets the status to DONE, leaves the callback list as it was, and appends
to the loop registry exactly one immediate event (due `now`) per currently
registered callback, in registration order and with consecutive enqueue tags —
each callback exactly once and nothing else. -/
theorem set_result_completes_and_schedules_callbacks (f : Future) (v : PyVal)
    (now : Time) (L : Loop) (h : f.status = FutureStatus.SCHEDULED) :
    ((f.set_result v now L).1._result = some v) ∧
    ((f.set_result v now L).1.status = FutureStatus.DONE) ∧
    ((f.set_result v now L).1.callbacks = f.callbacks) ∧
    ((f.set_result v now L).2.events
      = L.events ++ schedList f.callbacks now L.nextTag) ∧
    ((f.set_result v now L).2.nextTag = L.nextTag + f.callbacks.length) := by
  have h2 : (f.set_result v now L).2
      = f.callbacks.foldl (fun acc c => acc.call_soon c now) L := rfl
  refine ⟨rfl, rfl, rfl, ?_, ?_⟩ <;> rw [h2, foldl_call_soon]

/-- Claim C5 (witness): instantiation with one registered callback. -/
theorem set_result_completes_and_schedules_callbacks_witness :
    (({ callbacks := [{ fn := FnId.send 0, args := [PyVal.none] }] : Future
        }.set_result (PyVal.int 5) 2 ({} : Loop)).1._result
      = some (PyVal.int 5)) ∧
    (({ callbacks := [{ fn := FnId.send 0, args := [PyVal.none] }] : Future
        }.set_result (PyVal.int 5) 2 ({} : Loop)).1.status = FutureStatus.DONE) ∧
    (({ callbacks := [{ fn := FnId.send 0, args := [PyVal.none] }] : Future
        }.set_result (PyVal.int 5) 2 ({} : Loop)).1.callbacks
      = [{ fn := FnId.send 0, args := [PyVal.none] }]) ∧
    (({ callbacks := [{ fn := FnId.send 0, args := [PyVal.none] }] : Future
        }.set_result (PyVal.int 5) 2 ({} : Loop)).2.events
      = ({} : Loop).events
        ++ schedList [{ fn := FnId.send 0, args := [PyVal.none] }] 2
            ({} : Loop).nextTag) ∧
    (({ callbacks := [{ fn := FnId.send 0, args := [PyVal.none] }] : Future
        }.set_result (PyVal.int 5) 2 ({} : Loop)).2.nextTag
      = ({} : Loop).nextTag
        + [({ fn := FnId.send 0, args := [PyVal.none] } : Callback)].length) :=
  set_result_completes_and_schedules_callbacks
    { callbacks := [{ fn := FnId.send 0, args := [PyVal.none] }] }
    (PyVal.int 5) 2 {} rfl

/-! ### Claim C7 -/

/-- Claim C7: querying a future through the suspension protocol
(`Future.__iter__`) yields exactly one of three outcomes: DONE produces the
stored result immediately with no suspension, CANCELLED produces `None`
immediately with no suspension, and SCHEDULED suspends the caller with the
future itself as the waiting token. -/
theorem future_iter_trichotomy (f : Future) :
    (f.status = FutureStatus.DONE → f.iter = IterOutcome.finished f.result) ∧
    (f.status = FutureStatus.CANCELLED →
      f.iter = IterOutcome.finished PyVal.none) ∧
    (f.status = FutureStatus.SCHEDULED → f.iter = IterOutcome.suspended f) := by
  refine ⟨fun h => ?_, fun h => ?_, fun h => ?_⟩ <;> simp [Future.iter, h]

/-- Claim C7 (witness): the three branches at concrete futures. -/
theorem future_iter_trichotomy_witness :
    (({ status := FutureStatus.DONE, _result := some (PyVal.int 3) : Future
        }.iter = IterOutcome.finished (PyVal.int 3))) ∧
    (({ status := FutureStatus.CANCELLED : Future }.iter
      = IterOutcome.finished PyVal.none)) ∧
    (create_future.iter = IterOutcome.suspended create_future) :=
  ⟨(future_iter_trichotomy _).1 rfl,
   (future_iter_trichotomy { status := FutureStatus.CANCELLED }).2.1 rfl,
   (future_iter_trichotomy create_future).2.2 rfl⟩

/-! ### Claim C8 -/

/-- Claim C8: `cancel()` writes status CANCELLED and changes nothing else —
`_result` and `callbacks` are untouched; in particular cancelling after
`set_result(v)` leaves the stored result `v` in place. -/
theorem cancel_only_sets_status (f : Future) (v : PyVal) (now : Time)
    (L : Loop) :
    (f.cancel.status = FutureStatus.CANCELLED) ∧
    (f.cancel._result = f._result) ∧
    (f.cancel.callbacks = f.callbacks) ∧
    (((f.set_result v now L).1.cancel)._result = some v) ∧
    (((f.set_result v now L).1.cancel).result = v) :=
  ⟨rfl, rfl, rfl, rfl, rfl⟩

/-! ### Claim C9 -/

/-- Claim C9: if a future is completed by exactly one `set_result` call, then
after that call the loop registry never changes again: registering a callback
once the status is DONE (and any further cancel/register calls) schedules
nothing, and the events ever scheduled for the future are exactly one per
callback registered before completion. -/
theorem late_callback_never_scheduled (pre post : List FOp) (c : Callback)
    (v : PyVal) (t : Time) (L : Loop)
    (hpre : ∀ op ∈ pre, op.isSet = false)
    (hpost : ∀ op ∈ post, op.isSet = false) :
    ((applyFOps (applyFOp (applyFOps (create_future, L) pre)
        (FOp.set_result v t)) (FOp.add_done_callback c :: post)).2
      = (applyFOp (applyFOps (create_future, L) pre) (FOp.set_result v t)).2) ∧
    ((applyFOp (applyFOps (create_future, L) pre) (FOp.set_result v t)).2.events
      = L.events
        ++ schedList (applyFOps (create_future, L) pre).1.callbacks t
            L.nextTag) := by
  constructor
  · apply applyFOps_loop_frame
    intro op hop
    rcases List.mem_cons.mp hop with rfl | hop
    · rfl
    · exact hpost op hop
  · have hL : (applyFOps (create_future, L) pre).2 = L :=
      applyFOps_loop_frame pre _ hpre
    have h2 : (applyFOp (applyFOps (create_future, L) pre)
        (FOp.set_result v t)).2
      = ((applyFOps (create_future, L) pre).1.callbacks).foldl
          (fun acc cb => acc.call_soon cb t)
          (applyFOps (create_future, L) pre).2 := rfl
    rw [h2, hL, foldl_call_soon]

/-- Claim C9 (witness): one callback registered before completion, one
registered after; only the first is ever scheduled. -/
theorem late_callback_never_scheduled_witness :
    ((applyFOps (applyFOp (applyFOps (create_future, ({} : Loop))
        [FOp.add_done_callback { fn := FnId.send 0, args := [PyVal.none] }])
        (FOp.set_result (PyVal.int 2) 3))
        (FOp.add_done_callback { fn := FnId.send 1, args := [PyVal.none] }
          :: [FOp.cancel])).2
      = (applyFOp (applyFOps (create_future, ({} : Loop))
          [FOp.add_done_callback { fn := FnId.send 0, args := [PyVal.none] }])
          (FOp.set_result (PyVal.int 2) 3)).2) ∧
    ((applyFOp (applyFOps (create_future, ({} : Loop))
        [FOp.add_done_callback { fn := FnId.send 0, args := [PyVal.none] }])
        (FOp.set_result (PyVal.int 2) 3)).2.events
      = ({} : Loop).events
        ++ schedList (applyFOps (create_future, ({} : Loop))
            [FOp.add_done_callback
              { fn := FnId.send 0, args := [PyVal.none] }]).1.callbacks 3
            ({} : Loop).nextTag) :=
  late_callback_never_scheduled
    [FOp.add_done_callback { fn := FnId.send 0, args := [PyVal.none] }]
    [FOp.cancel] { fn := FnId.send 1, args := [PyVal.none] } (PyVal.int 2) 3 {}
    (by decide) (by decide)

/-! ### Claim C10 -/

/-- Claim C10: `done()` is true exactly when the status is not SCHEDULED; in
particular a cancelled future (status CANCELLED, result never set) reports
`done() = true`, the same answer as a future completed by `set_result`. -/
theorem done_iff_not_scheduled (f : Future) (v : PyVal) (now : Time)
    (L : Loop) :
    (f.done = true ↔ f.status ≠ FutureStatus.SCHEDULED) ∧
    (f.cancel.done = true) ∧
    (f.cancel.done = ((f.set_result v now L).1).done) ∧
    (create_future.cancel.done = true) ∧
    (create_future.cancel._result = Option.none) := by
  refine ⟨?_, rfl, rfl, rfl, rfl⟩
  simp [Future.done, bne_iff_ne]

/-- Claim C10 (witness): instantiation at a fresh future. -/
theorem done_iff_not_scheduled_witness :
    (create_future.done = true ↔ create_future.status ≠ FutureStatus.SCHEDULED) ∧
    (create_future.cancel.done = true) ∧
    (create_future.cancel.done
      = ((create_future.set_result (PyVal.int 1) 0 ({} : Loop)).1).done) ∧
    (create_future.cancel.done = true) ∧
    (create_future.cancel._result = Option.none) :=
  done_iff_not_scheduled create_future (PyVal.int 1) 0 {}

/-! ### Claim C2 -/

/-- Claim C2 (counterexample): `run` with zero computations does not return an
empty result sequence — it takes the bare `return` branch and returns Python
`None`, which is a different value from the empty list. -/
theorem run_empty_returns_none_not_empty_list :
    ((run (fun k => k) 5 ({} : World) []).1 = RunRet.retNone) ∧
    (RunRet.retNone ≠ RunRet.results []) :=
  ⟨rfl, by decide⟩

/-- Claim C2 (amended): `run` with zero computations returns immediately with
Python `None` (not an empty list), performs no scheduling — the world,
including the loop registry, is returned unchanged — executes nothing and
accumulates nothing. -/
theorem run_empty_returns_none_and_schedules_nothing (clock : Nat → Time)
    (fuel : Nat) (w : World) :
    run clock fuel w [] = (RunRet.retNone, { w := w }) := rfl

/-! ### Claim C3 -/

/-- Claim C3 (counterexample): a due event whose callback returns the plain
value 42 (not a Future, no completion signal raised) does not get its value
appended to the results: the run executes exactly one event and returns the
empty results list, which does not contain 42. -/
theorem run_drops_non_none_plain_value :
    ((run (fun k => k) 5 ({} : World)
        [[CoroStep.yieldVal (PyVal.int 42)]]).1 = RunRet.results []) ∧
    ((run (fun k => k) 5 ({} : World)
        [[CoroStep.yieldVal (PyVal.int 42)]]).2.trace.length = 1) ∧
    (¬ PyVal.int 42 ∈ ([] : List PyVal)) :=
  ⟨rfl, rfl, by decide⟩

/-- Claim C3 (amended): when a due event executes and its callback produces a
plain value `v` (directly or through the `StopIteration` handler), `run`
appends it to the results exactly when `v` is `None`; every other plain value
is silently discarded. -/
theorem run_appends_plain_value_iff_none (now : Time) (s : RunState) (e : Event)
    (rest : List Event) (v : PyVal)
    (hs : List.insertionSort leWhen s.w.loop.events = e :: rest)
    (hdue : e.when.getD 0 ≤ now)
    (hval : (execFn (setEvents s.w (e :: rest)) e.callback.fn e.callback.args
        now).2 = SendResult.val v) :
    (runStep now s).results
      = s.results ++ (if v = PyVal.none then [PyVal.none] else []) := by
  unfold runStep
  rw [hs]
  dsimp only
  rw [if_pos hdue]
  show dispatchResults s.results _ = _
  rw [hval]
  unfold dispatchResults
  by_cases hv : v = PyVal.none <;> simp [hv]

/-- Claim C3 (witness): the amended statement at the concrete state reached
after seeding a single coroutine that yields the plain value 42. -/
theorem run_appends_plain_value_iff_none_witness :
    (runStep 0 { w := seed {} [[CoroStep.yieldVal (PyVal.int 42)]] 0 }).results
      = [] ++ (if PyVal.int 42 = PyVal.none then [PyVal.none] else []) :=
  run_appends_plain_value_iff_none 0
    { w := seed {} [[CoroStep.yieldVal (PyVal.int 42)]] 0 }
    { callback := { fn := FnId.send 0, args := [PyVal.none] },
      when := some 0, tag := 0 }
    [] (PyVal.int 42) rfl (by decide) rfl

/-! ### Stability of the sort and bookkeeping of freshly scheduled events -/

theorem eqWhenTagLt_of_not_le {a b : Event} (h : ¬ leWhen a b) :
    eqWhenTagLt b a := by
  intro heq
  exact absurd (show leWhen a b by unfold leWhen; rw [heq]) h

theorem orderedInsert_pairwise_tag (a : Event) :
    ∀ l : List Event, l.Pairwise eqWhenTagLt → (∀ x ∈ l, eqWhenTagLt a x) →
      (List.orderedInsert leWhen a l).Pairwise eqWhenTagLt := by
  intro l
  induction l with
  | nil =>
      intro _ _
      simp [List.orderedInsert]
  | cons b l ih =>
      intro hp ha
      simp only [List.orderedInsert]
      by_cases hab : leWhen a b
      · rw [if_pos hab]
        exact List.pairwise_cons.mpr ⟨ha, hp⟩
      · rw [if_neg hab]
        refine List.pairwise_cons.mpr ⟨?_, ?_⟩
        · intro x hx
          rcases (List.mem_orderedInsert leWhen).mp hx with rfl | hx
          · exact eqWhenTagLt_of_not_le hab
          · exact (List.pairwise_cons.mp hp).1 x hx
        · exact ih (List.pairwise_cons.mp hp).2
            (fun x hx => ha x (List.mem_cons_of_mem _ hx))

theorem insertionSort_pairwise_tag :
    ∀ l : List Event, l.Pairwise eqWhenTagLt →
      (List.insertionSort leWhen l).Pairwise eqWhenTagLt := by
  intro l
  induction l with
  | nil => intro _; simp [List.insertionSort]
  | cons a l ih =>
      intro hp
      have hx := List.pairwise_cons.mp hp
      simp only [List.insertionSort]
      exact orderedInsert_pairwise_tag a _ (ih hx.2)
        (fun x hxx => hx.1 x ((List.mem_insertionSort leWhen).mp hxx))

theorem schedList_length (cs : List Callback) : ∀ (now : Time) (t0 : Nat),
    (schedList cs now t0).length = cs.length := by
  induction cs with
  | nil => intro now t0; rfl
  | cons c cs ih => intro now t0; simp [schedList, ih]

theorem schedList_get (cs : List Callback) : ∀ (now : Time) (t0 : Nat)
    (i : Nat) (h : i < (schedList cs now t0).length),
    ((schedList cs now t0).get ⟨i, h⟩).tag = t0 + i ∧
    ((schedList cs now t0).get ⟨i, h⟩).when = some now := by
  induction cs with
  | nil => intro now t0 i h; simp [schedList] at h
  | cons c cs ih =>
      intro now t0 i h
      cases i with
      | zero => simp [schedList]
      | succ i =>
          have hh : i < (schedList cs now (t0 + 1)).length := by
            simpa [schedList] using h
          have := ih now (t0 + 1) i hh
          simp only [schedList, List.get_cons_succ]
          exact ⟨by rw [this.1]; omega, this.2⟩

theorem newEvents_facts {new : List Event} {t0 : Nat} {now : Time}
    (h : ∀ (i : Nat) (hi : i < new.length),
      (new.get ⟨i, hi⟩).tag = t0 + i ∧ now ≤ (new.get ⟨i, hi⟩).when.getD 0) :
    (new.Pairwise eqWhenTagLt) ∧
    (∀ x ∈ new, t0 ≤ x.tag ∧ x.tag < t0 + new.length ∧
      now ≤ x.when.getD 0) := by
  constructor
  · rw [List.pairwise_iff_get]
    intro i j hij
    intro _
    have hi := (h i.1 i.2).1
    have hj := (h j.1 j.2).1
    have hij2 : i.1 < j.1 := hij
    simp only [Fin.eta] at hi hj
    omega
  · intro x hx
    obtain ⟨i, hi⟩ := List.mem_iff_get.mp hx
    have h1 := (h i.1 i.2).1
    have h2 := (h i.1 i.2).2
    simp only [Fin.eta] at h1 h2
    rw [← hi]
    have hlt : i.1 < new.length := i.2
    exact ⟨by omega, by omega, h2⟩

theorem execFn_loop (w : World) (fn : FnId) (args : List PyVal) (now : Time) :
    ∃ new : List Event,
      ((execFn w fn args now).1.loop.events = w.loop.events ++ new) ∧
      ((execFn w fn args now).1.loop.nextTag = w.loop.nextTag + new.length) ∧
      (∀ (i : Nat) (h : i < new.length),
        (new.get ⟨i, h⟩).tag = w.loop.nextTag + i ∧
        now ≤ (new.get ⟨i, h⟩).when.getD 0) := by
  cases fn with
  | set_result i =>
      refine ⟨schedList (w.getFuture i).callbacks now w.loop.nextTag, ?_, ?_, ?_⟩
      · show (((w.getFuture i).set_result (args.headD PyVal.none) now
            w.loop).2).events = _
        have h2 : ((w.getFuture i).set_result (args.headD PyVal.none) now
            w.loop).2
          = ((w.getFuture i).callbacks).foldl
              (fun acc c => acc.call_soon c now) w.loop := rfl
        rw [h2, foldl_call_soon]
      · show (((w.getFuture i).set_result (args.headD PyVal.none) now
            w.loop).2).nextTag = _
        have h2 : ((w.getFuture i).set_result (args.headD PyVal.none) now
            w.loop).2
          = ((w.getFuture i).callbacks).foldl
              (fun acc c => acc.call_soon c now) w.loop := rfl
        rw [h2, foldl_call_soon, schedList_length]
      · intro i2 h
        refine ⟨(schedList_get _ now _ i2 h).1, ?_⟩
        rw [(schedList_get _ now _ i2 h).2]
        exact Nat.le_refl now
  | send i =>
      simp only [execFn]
      split
      · exact ⟨[], by simp, by simp, by intro i2 h; simp at h⟩
      · split
        · exact ⟨[], by simp, by simp, by intro i2 h; simp at h⟩
        · exact ⟨[], by simp, by simp, by intro i2 h; simp at h⟩
        · exact ⟨[], by simp, by simp, by intro i2 h; simp at h⟩
        · rename_i delay res hsteps
          refine ⟨[⟨⟨FnId.set_result w.futures.length, [res]⟩,
            some (now + delay), w.loop.nextTag⟩], ?_, ?_, ?_⟩
          · simp [Loop.call_later]
          · simp [Loop.call_later]
          · intro i2 h
            simp only [List.length_cons, List.length_nil] at h
            interval_cases i2
            constructor
            · show w.loop.nextTag = w.loop.nextTag + 0
              omega
            · show now ≤ (some (now + delay)).getD 0
              simp

theorem dispatchWorld_loop (w1 : World) (r : SendResult) (c : Callback) :
    (dispatchWorld w1 r c).loop = w1.loop := by
  cases r <;> rfl

theorem execDue_w_loop (now : Time) (s : RunState) (e : Event)
    (rest : List Event) :
    (execDue now s e rest).w.loop
      = { events := (execFn (setEvents s.w (e :: rest)) e.callback.fn
            e.callback.args now).1.loop.events.tail,
          nextTag := (execFn (setEvents s.w (e :: rest)) e.callback.fn
            e.callback.args now).1.loop.nextTag } := by
  simp only [execDue, setEvents, dispatchWorld_loop]

theorem execDue_trace (now : Time) (s : RunState) (e : Event)
    (rest : List Event) :
    (execDue now s e rest).trace = s.trace ++ [e] := rfl

theorem loopInv_weaken {t1 t2 : Time} {s : RunState} (h : t1 ≤ t2)
    (hinv : LoopInv t1 s) : LoopInv t2 s :=
  ⟨hinv.tagsBound, hinv.pendingStable, hinv.traceTagsBound, hinv.traceSorted,
   hinv.traceStable, fun e he => Nat.le_trans (hinv.traceDue e he) h,
   hinv.cross⟩

theorem runStep_inv (now now2 : Time) (s : RunState) (hmono : now ≤ now2)
    (hinv : LoopInv now s) : LoopInv now2 (runStep now s) := by
  unfold runStep
  cases hsort : List.insertionSort leWhen s.w.loop.events with
  | nil => exact loopInv_weaken hmono hinv
  | cons e rest =>
      have hperm : (List.insertionSort leWhen s.w.loop.events).Perm
          s.w.loop.events := List.perm_insertionSort leWhen s.w.loop.events
      rw [hsort] at hperm
      have hmem : ∀ x, x ∈ e :: rest ↔ x ∈ s.w.loop.events :=
        fun x => hperm.mem_iff
      have hsorted : (e :: rest).Pairwise leWhen := by
        have := List.sorted_insertionSort leWhen s.w.loop.events
        rw [hsort] at this
        exact this
      have hstable : (e :: rest).Pairwise eqWhenTagLt := by
        have := insertionSort_pairwise_tag s.w.loop.events hinv.pendingStable
        rw [hsort] at this
        exact this
      dsimp only
      by_cases hdue : e.when.getD 0 ≤ now
      · rw [if_pos hdue]
        obtain ⟨new, hev, hnt, hnew⟩ := execFn_loop (setEvents s.w (e :: rest))
          e.callback.fn e.callback.args now
        have hw0ev : (setEvents s.w (e :: rest)).loop.events = e :: rest := rfl
        have hw0nt : (setEvents s.w (e :: rest)).loop.nextTag
            = s.w.loop.nextTag := rfl
        rw [hw0ev] at hev
        rw [hw0nt] at hnt hnew
        obtain ⟨hnewStable, hnewMem⟩ := newEvents_facts hnew
        have hLoop := execDue_w_loop now s e rest
        have hEv : (execDue now s e rest).w.loop.events = rest ++ new := by
          rw [hLoop]
          show (execFn (setEvents s.w (e :: rest)) e.callback.fn
            e.callback.args now).1.loop.events.tail = _
          rw [hev]
          rfl
        have hNt : (execDue now s e rest).w.loop.nextTag
            = s.w.loop.nextTag + new.length := by
          rw [hLoop]
          exact hnt
        have hTr : (execDue now s e rest).trace = s.trace ++ [e] :=
          execDue_trace now s e rest
        have heMem : e ∈ s.w.loop.events := (hmem e).mp (List.mem_cons_self e rest)
        have heTag : e.tag < s.w.loop.nextTag := hinv.tagsBound e heMem
        have hrestPend : ∀ x ∈ rest, x ∈ s.w.loop.events :=
          fun x hx => (hmem x).mp (List.mem_cons_of_mem e hx)
        refine ⟨?_, ?_, ?_, ?_, ?_, ?_, ?_⟩
        · -- tagsBound
          rw [hEv, hNt]
          intro x hx
          rcases List.mem_append.mp hx with hx | hx
          · have := hinv.tagsBound x (hrestPend x hx)
            omega
          · exact (hnewMem x hx).2.1
        · -- pendingStable
          rw [hEv]
          rw [List.pairwise_append]
          refine ⟨(List.pairwise_cons.mp hstable).2, hnewStable, ?_⟩
          intro a ha b hb
          intro _
          have ha2 := hinv.tagsBound a (hrestPend a ha)
          have hb2 := (hnewMem b hb).1
          omega
        · -- traceTagsBound
          rw [hTr, hNt]
          intro x hx
          rcases List.mem_append.mp hx with hx | hx
          · have := hinv.traceTagsBound x hx
            omega
          · rcases List.mem_singleton.mp hx with rfl
            omega
        · -- traceSorted
          rw [hTr, List.pairwise_append]
          refine ⟨hinv.traceSorted, List.pairwise_singleton _ _, ?_⟩
          intro a ha b hb
          rcases List.mem_singleton.mp hb with rfl
          exact (hinv.cross a ha b heMem).1
        · -- traceStable
          rw [hTr, List.pairwise_append]
          refine ⟨hinv.traceStable, List.pairwise_singleton _ _, ?_⟩
          intro a ha b hb
          rcases List.mem_singleton.mp hb with rfl
          exact (hinv.cross a ha b heMem).2
        · -- traceDue
          rw [hTr]
          intro x hx
          rcases List.mem_append.mp hx with hx | hx
          · exact Nat.le_trans (hinv.traceDue x hx) hmono
          · rcases List.mem_singleton.mp hx with rfl
            exact Nat.le_trans hdue hmono
        · -- cross
          rw [hTr, hEv]
          intro t ht p hp
          rcases List.mem_append.mp ht with ht | ht
          · rcases List.mem_append.mp hp with hp | hp
            · exact hinv.cross t ht p (hrestPend p hp)
            · constructor
              · show t.when.getD 0 ≤ p.when.getD 0
                have h1 := hinv.traceDue t ht
                have h2 := (hnewMem p hp).2.2
                exact Nat.le_trans h1 h2
              · intro _
                have h1 := hinv.traceTagsBound t ht
                have h2 := (hnewMem p hp).1
                omega
          · rcases List.mem_singleton.mp ht with rfl
            rcases List.mem_append.mp hp with hp | hp
            · exact ⟨(List.pairwise_cons.mp hsorted).1 p hp,
                (List.pairwise_cons.mp hstable).1 p hp⟩
            · constructor
              · show t.when.getD 0 ≤ p.when.getD 0
                have h2 := (hnewMem p hp).2.2
                exact Nat.le_trans hdue h2
              · intro _
                have h2 := (hnewMem p hp).1
                omega
      · rw [if_neg hdue]
        refine ⟨?_, hstable, hinv.traceTagsBound, hinv.traceSorted,
          hinv.traceStable,
          fun x hx => Nat.le_trans (hinv.traceDue x hx) hmono, ?_⟩
        · intro x hx
          exact hinv.tagsBound x ((hmem x).mp hx)
        · intro t ht p hp
          exact hinv.cross t ht p ((hmem p).mp hp)

theorem runAux_succ (clock : Nat → Time) (fuel k : Nat) (s : RunState) :
    runAux clock (fuel + 1) k s
      = if s.w.loop.events.isEmpty then (s, true)
        else runAux clock fuel (k + 1) (runStep (clock k) s) := rfl

theorem runAux_inv (clock : Nat → Time) (hc : ∀ k, clock k ≤ clock (k + 1)) :
    ∀ (fuel k : Nat) (s : RunState), LoopInv (clock k) s →
      LoopInv (clock (k + fuel)) (runAux clock fuel k s).1 := by
  intro fuel
  induction fuel with
  | zero => intro k s h; exact h
  | succ fuel ih =>
      intro k s h
      rw [runAux_succ]
      by_cases he : s.w.loop.events.isEmpty
      · rw [if_pos he]
        exact loopInv_weaken
          (monotone_nat_of_le_succ hc (Nat.le_add_right k (fuel + 1))) h
      · rw [if_neg he]
        have harr : k + (fuel + 1) = (k + 1) + fuel := by omega
        rw [harr]
        exact ih (k + 1) _ (runStep_inv (clock k) (clock (k + 1)) s (hc k) h)

theorem seed_inv (coros : List (List CoroStep)) : ∀ (w : World) (now : Time),
    ((seed w coros now).loop.nextTag = w.loop.nextTag + coros.length) ∧
    ((∀ e ∈ w.loop.events, e.tag < w.loop.nextTag) →
      ∀ e ∈ (seed w coros now).loop.events,
        e.tag < (seed w coros now).loop.nextTag) ∧
    ((∀ e ∈ w.loop.events, e.tag < w.loop.nextTag) →
      w.loop.events.Pairwise eqWhenTagLt →
      (seed w coros now).loop.events.Pairwise eqWhenTagLt) := by
  induction coros with
  | nil =>
      intro w now
      exact ⟨by simp [seed], fun hb => hb, fun _ hp => hp⟩
  | cons c cs ih =>
      intro w now
      have hseed : seed w (c :: cs) now
          = seed { w with
              coros := w.coros ++ [{ steps := c }],
              loop := w.loop.call_soon
                { fn := FnId.send w.coros.length, args := [PyVal.none] }
                now } cs now := rfl
      obtain ⟨ihNT, ihB, ihP⟩ := ih { w with
        coros := w.coros ++ [{ steps := c }],
        loop := w.loop.call_soon
          { fn := FnId.send w.coros.length, args := [PyVal.none] } now } now
      refine ⟨?_, ?_, ?_⟩
      · rw [hseed, ihNT]
        show w.loop.nextTag + 1 + cs.length = _
        simp [List.length_cons]
        omega
      · intro hb
        rw [hseed]
        apply ihB
        intro e he
        show e.tag < w.loop.nextTag + 1
        rcases List.mem_append.mp he with he | he
        · have := hb e he
          omega
        · rcases List.mem_singleton.mp he with rfl
          show w.loop.nextTag < w.loop.nextTag + 1
          omega
      · intro hb hp
        rw [hseed]
        apply ihP
        · intro e he
          show e.tag < w.loop.nextTag + 1
          rcases List.mem_append.mp he with he | he
          · have := hb e he
            omega
          · rcases List.mem_singleton.mp he with rfl
            show w.loop.nextTag < w.loop.nextTag + 1
            omega
        · show (w.loop.events
            ++ ([⟨⟨FnId.send w.coros.length, [PyVal.none]⟩, some now,
              w.loop.nextTag⟩] : List Event)).Pairwise eqWhenTagLt
          rw [List.pairwise_append]
          refine ⟨hp, List.pairwise_singleton _ _, ?_⟩
          intro a ha b hb2
          rcases List.mem_singleton.mp hb2 with rfl
          intro _
          show a.tag < w.loop.nextTag
          exact hb a ha

theorem seed_loopInv (w : World) (coros : List (List CoroStep)) (now : Time)
    (hw : w.loop.events = []) :
    LoopInv now { w := seed w coros now } := by
  have h := seed_inv coros w now
  have hb : ∀ e ∈ w.loop.events, e.tag < w.loop.nextTag := by
    rw [hw]
    intro e he
    simp at he
  have hp : w.loop.events.Pairwise eqWhenTagLt := by
    rw [hw]
    exact List.Pairwise.nil
  refine ⟨h.2.1 hb, h.2.2 hb hp, ?_, ?_, ?_, ?_, ?_⟩
  · intro e he
    simp at he
  · exact List.Pairwise.nil
  · exact List.Pairwise.nil
  · intro e he
    simp at he
  · intro e he
    simp at he

/-! ### Claim C6 -/

/-- Claim C6: in every execution of `run` from a loop whose registry starts
empty, and for a wall clock that never runs backwards, the events executed by
the drain loop (the ghost trace) are in non-decreasing order of their `when`
timestamps, and among events with equal `when` the execution order is the
enqueue order (smaller ghost tag first) — the stable-sort selection — including
events enqueued while the registry is already being drained. -/
theorem run_trace_ordered_and_stable (clock : Nat → Time) (fuel : Nat)
    (w : World) (coros : List (List CoroStep))
    (hc : ∀ k, clock k ≤ clock (k + 1)) (hw : w.loop.events = []) :
    ((run clock fuel w coros).2.trace.Pairwise whenLe) ∧
    ((run clock fuel w coros).2.trace.Pairwise eqWhenTagLt) := by
  unfold run
  by_cases hco : coros.length ≤ 0
  · rw [if_pos hco]
    exact ⟨List.Pairwise.nil, List.Pairwise.nil⟩
  · rw [if_neg hco]
    dsimp only
    have h0 := seed_loopInv w coros (clock 0) hw
    have h := runAux_inv clock hc fuel 0 _ h0
    exact ⟨h.traceSorted, h.traceStable⟩

/-- Claim C6 (witness): the demonstration entry point — three sleeps of 5, 2
and 2 seconds driven together — executes its events in non-decreasing due-time
order with stable tie-breaking. -/
theorem run_trace_ordered_and_stable_witness :
    (((run (fun k => k) 20 ({} : World)
        [sleepScript 5 PyVal.none, sleepScript 2 PyVal.none,
          sleepScript 2 PyVal.none]).2.trace.Pairwise whenLe)) ∧
    (((run (fun k => k) 20 ({} : World)
        [sleepScript 5 PyVal.none, sleepScript 2 PyVal.none,
          sleepScript 2 PyVal.none]).2.trace.Pairwise eqWhenTagLt)) :=
  run_trace_ordered_and_stable (fun k => k) 20 {}
    [sleepScript 5 PyVal.none, sleepScript 2 PyVal.none,
      sleepScript 2 PyVal.none]
    (fun k => Nat.le_succ k) rfl
